import Mathlib

/-!
Verification of the polynomial layer of an ML-KEM (FIPS-203) implementation.

The development shallowly embeds the functions of `mlkem/poly.c` over
`Nat`/`Int` arithmetic.  A polynomial is a total function `ℕ → ℤ`; only the
indices `0..255` correspond to the 256 `int16_t` coefficients of the C
`poly` struct.  Byte arrays are total functions `ℕ → ℕ`; only the indices
below the C array length carry meaning, and a byte is a value in `[0, 256)`.
C bitwise operators are embedded as the corresponding `Nat` operators
(`&&&`, `|||`, `<<<`, `>>>`), and fixed-width unsigned arithmetic is
embedded with an explicit `% 2^w`.

Scalar primitives (`montgomery_reduce`, `fqmul`, `cmov_int16`, the scalar
compress/decompress helpers), the zeta table, the CBD samplers and
`basemul_cached` are declared and called by the sources at hand but their
definitions live in files outside the provided tree; those are modelled
from the specification text, as indicated on each definition.
-/

/-- Balanced-split bounded checker: `checkRange p fuel lo len` checks the
Boolean predicate `p` on every point of the interval `[lo, lo + len)`,
splitting the interval in half at each of at most `fuel` recursion levels.
It is used to establish facts of the form `∀ i < n, p i` by kernel
evaluation without a deep recursion. -/
def checkRange (p : Nat → Bool) : Nat → Nat → Nat → Bool
  | 0, _, len => len == 0
  | fuel+1, lo, len =>
      if len ≤ 1 then (if len == 0 then true else p lo)
      else checkRange p fuel lo (len / 2) &&
           checkRange p fuel (lo + len / 2) (len - len / 2)

/-- The ML-KEM modulus q = 3329 (`MLKEM_Q` in `params.h`). -/
def MLKEM_Q : ℕ := 3329

/-- The polynomial degree N = 256 (`MLKEM_N`). -/
def MLKEM_N : ℕ := 256

/-- Modelled from the spec: `HALF_Q = (q+1)/2 = 1665` (`params.h` is not in
the provided tree; the spec gives `(q+1)/2 = 1665` for `frommsg`). -/
def HALF_Q : ℕ := (MLKEM_Q + 1) / 2

/-- A polynomial: 256 signed 16-bit coefficients, embedded as `ℕ → ℤ`. -/
abbrev poly := ℕ → ℤ

/-- A byte array, embedded as `ℕ → ℕ` with values in `[0, 256)`. -/
abbrev Bytes := ℕ → ℕ

/-- Conversion of an `int16_t` coefficient to `uint16_t` (the C cast
performed by `poly_tobytes` when reading a coefficient): reduction
modulo 2^16. -/
def toUInt16Z (c : ℤ) : ℕ := (c % 65536).toNat

/-- Conversion of an `int16_t` coefficient to `uint32_t` (the C conversion
performed by `poly_tomsg` when reading a coefficient): reduction
modulo 2^32. -/
def toUInt32Z (c : ℤ) : ℕ := (c % 4294967296).toNat

/-- Modelled from the spec: `montgomery_reduce(a: i32) -> i16` returns
`t ≡ a·R⁻¹ (mod q)` with `R = 2^16`, implemented as
`t = (i16)a·q⁻¹ mod± R; (a − (i32)t·q) >> 16` (`reduce.h` is not in the
provided tree).  `q⁻¹ mod 2^16 = 62209`; the truncation of a product to
`int16_t` is the balanced residue `Int.bmod · 65536`, and the arithmetic
right shift by 16 of the exactly divisible difference is `Int.fdiv`. -/
def montgomery_reduce (a : ℤ) : ℤ :=
  Int.fdiv (a - Int.bmod (a * 62209) 65536 * 3329) 65536

/-- Modelled from the spec: `fqmul(a, b) = montgomery_reduce((i32)a · b)`. -/
def fqmul (a b : ℤ) : ℤ := montgomery_reduce (a * b)

/-- Modelled from the spec: `cmov_int16(dst, val, cond)` sets `*dst = val`
iff the low bit of `cond` is 1, otherwise leaves it (`verify.h` is not in
the provided tree; the constant-time mask idiom is functionally this
conditional). -/
def cmov_int16 (dst v : ℤ) (cond : ℕ) : ℤ := if cond % 2 = 1 then v else dst

/-- Modelled from the spec: `scalar_compress_q_16(u)` returns
`round(u · 16 / q) mod 16` (`⌊(2·16·u + q) / (2q)⌋ mod 16`; q is odd so no
tie arises).  The spec's parenthetical magic-multiplier expression realises
this rounding only with the constant `(q+1)/2`; the defining sentence is
the rounding itself, which is used here. -/
def scalar_compress_q_16 (u : ℕ) : ℕ := ((32 * u + MLKEM_Q) / (2 * MLKEM_Q)) % 16

/-- Modelled from the spec: `scalar_decompress_q_16(u) = round(u · q / 16)
= (u·q + 8) >> 4`. -/
def scalar_decompress_q_16 (u : ℕ) : ℕ := (u * MLKEM_Q + 8) >>> 4

/-- Modelled from the spec: `scalar_compress_q_32(u)` returns
`round(u · 32 / q) mod 32`, the 5-bit analogue of `scalar_compress_q_16`. -/
def scalar_compress_q_32 (u : ℕ) : ℕ := ((64 * u + MLKEM_Q) / (2 * MLKEM_Q)) % 32

/-- Modelled from the spec: `scalar_decompress_q_32(u) = round(u · q / 32)
= (u·q + 16) >> 5`. -/
def scalar_decompress_q_32 (u : ℕ) : ℕ := (u * MLKEM_Q + 16) >>> 5

/-- Reversal of the 7 low bits of `n` (the bit-reversed indexing of the
zeta tables). -/
def bitRev7 (n : ℕ) : ℕ :=
  ((n >>> 0) &&& 1) <<< 6 ||| ((n >>> 1) &&& 1) <<< 5 ||| ((n >>> 2) &&& 1) <<< 4 |||
  ((n >>> 3) &&& 1) <<< 3 ||| ((n >>> 4) &&& 1) <<< 2 ||| ((n >>> 5) &&& 1) <<< 1 |||
  ((n >>> 6) &&& 1)

/-- Modelled from the spec: the zeta table entries are the Montgomery-form
powers of the primitive 256-th root ζ = 17, stored in bit-reversed layer
order (`ntt.h`/`zetas.c` is not in the provided tree):
`zetas[i] = 17^bitRev7(i) · 2^16 mod q`. -/
def zetas (n : ℕ) : ℤ := ((17 ^ bitRev7 n * 65536) % MLKEM_Q : ℕ)

/-- Embedding of `poly_tobytes` (`poly.c`): byte `3i+0` is the low 8 bits of
coefficient `2i`, byte `3i+1` packs the top 4 bits of coefficient `2i` with
the low 4 bits of coefficient `2i+1`, byte `3i+2` is the top 8 bits of
coefficient `2i+1`.  Coefficients are read through the `uint16_t` cast. -/
def poly_tobytes (a : poly) : Bytes := fun n =>
  let i := n / 3
  let t0 := toUInt16Z (a (2 * i))
  let t1 := toUInt16Z (a (2 * i + 1))
  match n % 3 with
  | 0 => t0 &&& 0xFF
  | 1 => (t0 >>> 8) ||| ((t1 <<< 4) &&& 0xF0)
  | _ => t1 >>> 4

/-- Embedding of `poly_frombytes` (`poly.c`): coefficient `2i` is
`t0 | ((t1 << 8) & 0xFFF)` and coefficient `2i+1` is `(t1 >> 4) | (t2 << 4)`
for the byte triple `t0 t1 t2` at offset `3i`. -/
def poly_frombytes (a : Bytes) : poly := fun k =>
  let i := k / 2
  let t0 := a (3 * i)
  let t1 := a (3 * i + 1)
  let t2 := a (3 * i + 2)
  if k % 2 = 0 then ((t0 ||| ((t1 <<< 8) &&& 0xFFF) : ℕ) : ℤ)
  else (((t1 >>> 4) ||| (t2 <<< 4) : ℕ) : ℤ)

/-- The raw 12-bit little-endian decoding described by the spec: bytes are
grouped in threes, each group read as a 24-bit little-endian integer
holding two consecutive 12-bit coefficient values. -/
def rawDecode12 (a : Bytes) (k : ℕ) : ℕ :=
  let g := a (3 * (k / 2)) + 256 * a (3 * (k / 2) + 1) + 65536 * a (3 * (k / 2) + 2)
  (g >>> (12 * (k % 2))) % 4096

/-- Embedding of `poly_frommsg` (`poly.c`): coefficient `8i+j` is set to 0
and then conditionally moved to `HALF_Q` under bit `j` of message byte `i`. -/
def poly_frommsg (msg : Bytes) : poly := fun k =>
  cmov_int16 0 (HALF_Q : ℤ) ((msg (k / 8) >>> (k % 8)) &&& 1)

/-- The per-coefficient bit computed by `poly_tomsg` (`poly.c`): the
coefficient is converted to `uint32_t`, then
`t = coeff << 1; t += HALF_Q; t *= 80635; t >>= 28; t &= 1` in 32-bit
unsigned arithmetic. -/
def poly_tomsg_bit (c : ℤ) : ℕ :=
  let coeff := toUInt32Z c
  let t1 := (coeff <<< 1) % 4294967296
  let t2 := (t1 + HALF_Q) % 4294967296
  let t3 := (t2 * 80635) % 4294967296
  (t3 >>> 28) &&& 1

/-- Embedding of `poly_tomsg` (`poly.c`): message byte `i` accumulates
`msg[i] |= t << j` over `j = 0..7` starting from `msg[i] = 0`. -/
def poly_tomsg (a : poly) : Bytes := fun i =>
  (List.range 8).foldl (fun acc j => acc ||| (poly_tomsg_bit (a (8 * i + j)) <<< j)) 0

/-- The constant-time bit formula exactly as the specification text writes
it, with `q/2` read as the C integer quotient `MLKEM_Q / 2 = 1664`, in
32-bit unsigned arithmetic. -/
def tomsg_bit_specFormula (c : ℕ) : ℕ :=
  ((((2 * c + MLKEM_Q / 2) * 80635) % 4294967296) >>> 28) &&& 1

/-- Compress_1 of FIPS-203 in the axiomatic form asserted inside
`poly_tomsg` for unsigned-canonical input: `((2c + q/2) / q) & 1`, the
round-to-nearest value `round(2c/q) mod 2`. -/
def compress1 (c : ℕ) : ℕ := ((2 * c + MLKEM_Q / 2) / MLKEM_Q) % 2

/-- The KAT message of the spec: first byte 0xFF, remaining bytes 0x00. -/
def msgFF : Bytes := fun j => if j = 0 then 0xFF else 0

/-- Embedding of `poly_compress` for the 128-byte layout
(`MLKEM_POLYCOMPRESSEDBYTES == 128` in `poly.c`): block `i` compresses the
eight coefficients `8i..8i+7` to 4-bit values `t0..t7` and packs them as
`r[4i+b] = t[2b] | (t[2b+1] << 4)`. -/
def poly_compress_128 (a : poly) : Bytes := fun n =>
  let i := n / 4
  let t : ℕ → ℕ := fun j => scalar_compress_q_16 (a (8 * i + j)).toNat
  match n % 4 with
  | 0 => t 0 ||| (t 1 <<< 4)
  | 1 => t 2 ||| (t 3 <<< 4)
  | 2 => t 4 ||| (t 5 <<< 4)
  | _ => t 6 ||| (t 7 <<< 4)

/-- Embedding of `poly_decompress` for the 128-byte layout (`poly.c`):
coefficient `2i` decompresses the low nibble of byte `i` and coefficient
`2i+1` its high nibble. -/
def poly_decompress_128 (a : Bytes) : poly := fun k =>
  let i := k / 2
  if k % 2 = 0 then (scalar_decompress_q_16 ((a i >>> 0) &&& 0xF) : ℤ)
  else (scalar_decompress_q_16 ((a i >>> 4) &&& 0xF) : ℤ)

/-- Embedding of `poly_compress` for the 160-byte layout
(`MLKEM_POLYCOMPRESSEDBYTES == 160` in `poly.c`): block `i` compresses the
eight coefficients `8i..8i+7` to 5-bit values `t0..t7` and packs them into
five bytes. -/
def poly_compress_160 (a : poly) : Bytes := fun n =>
  let i := n / 5
  let t : ℕ → ℕ := fun j => scalar_compress_q_32 (a (8 * i + j)).toNat
  match n % 5 with
  | 0 => 0xFF &&& ((t 0 >>> 0) ||| (t 1 <<< 5))
  | 1 => 0xFF &&& ((t 1 >>> 3) ||| (t 2 <<< 2) ||| (t 3 <<< 7))
  | 2 => 0xFF &&& ((t 3 >>> 1) ||| (t 4 <<< 4))
  | 3 => 0xFF &&& ((t 4 >>> 4) ||| (t 5 <<< 1) ||| (t 6 <<< 6))
  | _ => 0xFF &&& ((t 6 >>> 2) ||| (t 7 <<< 3))

/-- Embedding of `poly_decompress` for the 160-byte layout (`poly.c`):
block `i` unpacks five bytes at offset `5i` into eight 5-bit values and
decompresses each. -/
def poly_decompress_160 (a : Bytes) : poly := fun k =>
  let off := 5 * (k / 8)
  let t : ℕ → ℕ := fun j =>
    match j with
    | 0 => 0x1F &&& (a (off + 0) >>> 0)
    | 1 => 0x1F &&& ((a (off + 0) >>> 5) ||| (a (off + 1) <<< 3))
    | 2 => 0x1F &&& (a (off + 1) >>> 2)
    | 3 => 0x1F &&& ((a (off + 1) >>> 7) ||| (a (off + 2) <<< 1))
    | 4 => 0x1F &&& ((a (off + 2) >>> 4) ||| (a (off + 3) <<< 4))
    | 5 => 0x1F &&& (a (off + 3) >>> 1)
    | 6 => 0x1F &&& ((a (off + 3) >>> 6) ||| (a (off + 4) <<< 2))
    | _ => 0x1F &&& (a (off + 4) >>> 3)
  (scalar_decompress_q_32 (t (k % 8)) : ℤ)

/-- Embedding of `poly_add` (`poly.c`): exact coefficient-wise integer sum
`r[i] = r[i] + b[i]`; the second argument is not modified (the embedding is
functional, so this is by construction). -/
def poly_add (r b : poly) : poly := fun k => r k + b k

/-- Embedding of `poly_sub` (`poly.c`): exact coefficient-wise integer
difference `r[i] = r[i] - b[i]`. -/
def poly_sub (r b : poly) : poly := fun k => r k - b k

/-- Embedding of `poly_mulcache_compute` (`poly.c`): the loop over
`i < MLKEM_N/4 = 64` writes cache entries `x[2i] = fqmul(a[4i+1],
zetas[64+i])` and `x[2i+1] = fqmul(a[4i+3], -zetas[64+i])`; the cache has
128 entries.  The embedding is a total function of the entry index. -/
def poly_mulcache_compute (a : poly) : ℕ → ℤ := fun p =>
  let i := p / 2
  if p % 2 = 0 then fqmul (a (4 * i + 1)) (zetas (64 + i))
  else fqmul (a (4 * i + 3)) (-zetas (64 + i))

/-- Input used to exhibit the failure of the claim that the mul-cache
correspondence ranges over pair indices `[0, 128)`: its 256 polynomial
coefficients (indices below 256) are all zero, hence int16-representable;
the value at the out-of-range index 257 — which pair index 64 would read
as `a[4·64+1]` — is arbitrary. -/
def aBadMulcache : poly := fun j => if j = 257 then 131072 else 0

/-- Modelled from the spec: `basemul_cached(r, a, b, b_cached)` computes a
degree-1 product modulo `X² − ζ`: with the cached `b_cached = b₁·ζ` (in
Montgomery form), `r₀ = montgomery_reduce(a₁·b_cached + a₀·b₀)` and
`r₁ = montgomery_reduce(a₀·b₁ + a₁·b₀)` (`ntt.h` is not in the provided
tree). -/
def basemul_cached (a0 a1 b0 b1 bc : ℤ) : ℤ × ℤ :=
  (montgomery_reduce (a1 * bc + a0 * b0), montgomery_reduce (a0 * b1 + a1 * b0))

/-- Embedding of `poly_basemul_montgomery_cached` (`poly.c`): each loop
iteration `i < 64` performs `basemul_cached` on coefficient pairs
`(4i, 4i+1)` with cache entry `2i` and `(4i+2, 4i+3)` with cache entry
`2i+1`; equivalently, pair `p < 128` produces coefficients `2p, 2p+1` from
`a[2p], a[2p+1], b[2p], b[2p+1]` and cache entry `p`. -/
def poly_basemul_montgomery_cached (a b : poly) (b_cache : ℕ → ℤ) : poly := fun k =>
  let p := k / 2
  let r := basemul_cached (a (2 * p)) (a (2 * p + 1)) (b (2 * p)) (b (2 * p + 1)) (b_cache p)
  if k % 2 = 0 then r.1 else r.2

/-- Bit `t` of a little-endian byte stream. -/
def streamBit (buf : Bytes) (t : ℕ) : ℕ := (buf (t / 8) >>> (t % 8)) &&& 1

/-- Modelled from the spec: `poly_cbd2` — each 4 consecutive bits of the
byte stream contribute one coefficient `popcount(lo 2 bits) − popcount(hi
2 bits)`, little-endian (`cbd.c` is not in the provided tree). -/
def poly_cbd2 (buf : Bytes) : poly := fun k =>
  ((streamBit buf (4 * k) + streamBit buf (4 * k + 1) : ℕ) : ℤ) -
  ((streamBit buf (4 * k + 2) + streamBit buf (4 * k + 3) : ℕ) : ℤ)

/-- Modelled from the spec: `poly_cbd3` — each 6 consecutive bits of the
byte stream contribute one coefficient `popcount(lo 3 bits) − popcount(hi
3 bits)`, little-endian. -/
def poly_cbd3 (buf : Bytes) : poly := fun k =>
  ((streamBit buf (6 * k) + streamBit buf (6 * k + 1) + streamBit buf (6 * k + 2) : ℕ) : ℤ) -
  ((streamBit buf (6 * k + 3) + streamBit buf (6 * k + 4) + streamBit buf (6 * k + 5) : ℕ) : ℤ)

/-- The compile-time selection `poly_cbd_eta1`: `poly_cbd3` when
`MLKEM_ETA1 = 3` (ML-KEM-512) and `poly_cbd2` when `MLKEM_ETA1 = 2`. -/
def poly_cbd_eta1 (eta1 : ℕ) : Bytes → poly :=
  if eta1 = 3 then poly_cbd3 else poly_cbd2

/-- The 33-byte extended key `seed || nonce` built by the noise functions. -/
def mlkemExtkey (seed : Bytes) (nonce : ℕ) : Bytes := fun t =>
  if t < 32 then seed t else nonce

/-- Embedding of `poly_getnoise_eta2` (`poly.c`): SHAKE-256 (the `prf`) is
an external byte-producing oracle, passed as a parameter mapping an input
byte stream to an output byte stream; the squeezed bytes feed
`poly_cbd_eta2 = poly_cbd2` (η2 = 2 for every parameter set). -/
def poly_getnoise_eta2 (shake256 : Bytes → Bytes) (seed : Bytes) (nonce : ℕ) : poly :=
  poly_cbd2 (shake256 (mlkemExtkey seed nonce))

/-- Embedding of `poly_getnoise_eta1122_4x` (`poly.c`): four noise
polynomials from one seed and four nonces; the first two use η1, the last
two η2 = 2.  Whether the bytes come from the batched `shake256x4` (when
η1 = η2) or four single-lane `shake256` calls, each lane is one SHAKE-256
stream of the corresponding extended key, here one oracle call per lane. -/
def poly_getnoise_eta1122_4x (shake256 : Bytes → Bytes) (eta1 : ℕ) (seed : Bytes)
    (nonce0 nonce1 nonce2 nonce3 : ℕ) : poly × poly × poly × poly :=
  (poly_cbd_eta1 eta1 (shake256 (mlkemExtkey seed nonce0)),
   poly_cbd_eta1 eta1 (shake256 (mlkemExtkey seed nonce1)),
   poly_cbd2 (shake256 (mlkemExtkey seed nonce2)),
   poly_cbd2 (shake256 (mlkemExtkey seed nonce3)))

/-- A concrete unsigned-canonical polynomial (coefficient `k` is `k`),
used by witnesses. -/
def polyRamp : poly := fun k => (k % 256 : ℕ)

/-- A concrete message-byte function for witnesses. -/
def bytesRamp : Bytes := fun n => n % 256

/-! Generic helper lemmas. -/

theorem checkRange_sound (p : Nat → Bool) :
    ∀ fuel lo len, checkRange p fuel lo len = true → ∀ i, i < len → p (lo + i) = true := by
  intro fuel
  induction fuel with
  | zero =>
      intro lo len h i hi
      simp only [checkRange, beq_iff_eq] at h
      omega
  | succ fuel ih =>
      intro lo len h i hi
      simp only [checkRange] at h
      by_cases hl : len ≤ 1
      · simp only [hl, if_true] at h
        have hlen : len = 1 := by omega
        subst hlen
        have hz : i = 0 := by omega
        simp only [hz, Nat.add_zero]
        simpa using h
      · simp only [hl, if_false, Bool.and_eq_true] at h
        by_cases hc : i < len / 2
        · exact ih lo (len / 2) h.1 i hc
        · have h2 := ih (lo + len / 2) (len - len / 2) h.2 (i - len / 2) (by omega)
          have he : lo + len / 2 + (i - len / 2) = lo + i := by omega
          rwa [he] at h2

theorem ball_of_checkRange (p : Nat → Bool) (n fuel : Nat)
    (h : checkRange p fuel 0 n = true) : ∀ i, i < n → p i = true := by
  intro i hi
  have hs := checkRange_sound p fuel 0 n h i hi
  simpa using hs

theorem lor_eq_add (n x y : ℕ) (hx : x < 2 ^ n) (hy : y % 2 ^ n = 0) :
    x ||| y = x + y := by
  have h1 : 2 ^ n * (y / 2 ^ n) = y := by
    have hd := Nat.div_add_mod y (2 ^ n)
    omega
  have h2 := Nat.mul_add_lt_is_or hx (y / 2 ^ n)
  rw [h1] at h2
  rw [Nat.lor_comm, ← h2]
  omega

theorem shl_and_shl (x y n : ℕ) : (x <<< n) &&& (y <<< n) = (x &&& y) <<< n := by
  apply Nat.eq_of_testBit_eq
  intro j
  simp only [Nat.testBit_and, Nat.testBit_shiftLeft]
  rcases le_or_lt n j with h | h
  · simp [h]
  · simp [Nat.not_le_of_lt h]

theorem and255 (x : ℕ) : x &&& 255 = x % 256 := by
  simpa using Nat.and_pow_two_sub_one_eq_mod x 8

theorem and15 (x : ℕ) : x &&& 15 = x % 16 := by
  simpa using Nat.and_pow_two_sub_one_eq_mod x 4

theorem and31 (x : ℕ) : x &&& 31 = x % 32 := by
  simpa using Nat.and_pow_two_sub_one_eq_mod x 5

theorem and4095 (x : ℕ) : x &&& 4095 = x % 4096 := by
  simpa using Nat.and_pow_two_sub_one_eq_mod x 12

theorem and1 (x : ℕ) : x &&& 1 = x % 2 :=
  Nat.and_pow_two_sub_one_eq_mod x 1

theorem and255L (x : ℕ) : 255 &&& x = x % 256 := by
  rw [Nat.land_comm]; exact and255 x

theorem and15L (x : ℕ) : 15 &&& x = x % 16 := by
  rw [Nat.land_comm]; exact and15 x

theorem and31L (x : ℕ) : 31 &&& x = x % 32 := by
  rw [Nat.land_comm]; exact and31 x

theorem shl4_and240 (y : ℕ) : (y <<< 4) &&& 240 = 16 * (y % 16) := by
  have h240 : (240 : ℕ) = 15 <<< 4 := rfl
  rw [h240, shl_and_shl, and15, Nat.shiftLeft_eq]
  ring

theorem toUInt16Z_canonical (c : ℤ) (h0 : 0 ≤ c) (h1 : c < 3329) :
    toUInt16Z c = c.toNat ∧ c.toNat < 3329 := by
  unfold toUInt16Z
  have he : c % 65536 = c := Int.emod_eq_of_lt h0 (by omega)
  rw [he]
  omega

theorem toUInt32Z_canonical (c : ℤ) (h0 : 0 ≤ c) (h1 : c < 3329) :
    toUInt32Z c = c.toNat ∧ c.toNat < 3329 := by
  unfold toUInt32Z
  have he : c % 4294967296 = c := Int.emod_eq_of_lt h0 (by omega)
  rw [he]
  omega

theorem montgomery_reduce_bound (a : ℤ)
    (ha : -109051904 ≤ a ∧ a ≤ 109051904) :
    -3328 ≤ montgomery_reduce a ∧ montgomery_reduce a ≤ 3328 := by
  unfold montgomery_reduce
  have hrdef : (a * 62209) % 65536 = a * 62209 - 65536 * (a * 62209 / 65536) :=
    Int.emod_def (a * 62209) 65536
  have hr0 : 0 ≤ (a * 62209) % 65536 := Int.emod_nonneg _ (by norm_num)
  have hr1 : (a * 62209) % 65536 < 65536 := Int.emod_lt_of_pos _ (by norm_num)
  rw [Int.bmod_def]
  push_cast
  split_ifs with hc
  · have key : a - (a * 62209) % 65536 * 3329 =
        65536 * (3329 * (a * 62209 / 65536) - 3160 * a) := by
      rw [hrdef]; ring
    rw [key, Int.mul_fdiv_cancel_left _ (by norm_num)]
    omega
  · have key : a - ((a * 62209) % 65536 - 65536) * 3329 =
        65536 * (3329 * (a * 62209 / 65536) + 3329 - 3160 * a) := by
      rw [hrdef]; ring
    rw [key, Int.mul_fdiv_cancel_left _ (by norm_num)]
    omega

theorem zetas_bounds (n : ℕ) : 0 ≤ zetas n ∧ zetas n < 3329 := by
  unfold zetas
  have h : (17 ^ bitRev7 n * 65536) % MLKEM_Q < MLKEM_Q :=
    Nat.mod_lt _ (by norm_num [MLKEM_Q])
  constructor
  · exact Int.ofNat_nonneg _
  · exact_mod_cast h

/-! Helper lemmas about `poly_tomsg` and the scalar conversions. -/

theorem poly_tomsg_bit_le (c : ℤ) : poly_tomsg_bit c ≤ 1 := by
  simp only [poly_tomsg_bit]
  rw [and1]
  omega

theorem byte_or_bits (b0 b1 b2 b3 b4 b5 b6 b7 : ℕ)
    (h0 : b0 ≤ 1) (h1 : b1 ≤ 1) (h2 : b2 ≤ 1) (h3 : b3 ≤ 1)
    (h4 : b4 ≤ 1) (h5 : b5 ≤ 1) (h6 : b6 ≤ 1) (_h7 : b7 ≤ 1) :
    ((((((((0 ||| b0 <<< 0) ||| b1 <<< 1) ||| b2 <<< 2) ||| b3 <<< 3) ||| b4 <<< 4) |||
        b5 <<< 5) ||| b6 <<< 6) ||| b7 <<< 7) =
      b0 + 2 * b1 + 4 * b2 + 8 * b3 + 16 * b4 + 32 * b5 + 64 * b6 + 128 * b7 := by
  simp only [Nat.zero_or, Nat.shiftLeft_eq]
  rw [show b0 * 2 ^ 0 ||| b1 * 2 ^ 1 = b0 * 2 ^ 0 + b1 * 2 ^ 1 from
        lor_eq_add 1 _ _ (by omega) (by omega)]
  rw [show b0 * 2 ^ 0 + b1 * 2 ^ 1 ||| b2 * 2 ^ 2 = b0 * 2 ^ 0 + b1 * 2 ^ 1 + b2 * 2 ^ 2 from
        lor_eq_add 2 _ _ (by omega) (by omega)]
  rw [show b0 * 2 ^ 0 + b1 * 2 ^ 1 + b2 * 2 ^ 2 ||| b3 * 2 ^ 3 =
        b0 * 2 ^ 0 + b1 * 2 ^ 1 + b2 * 2 ^ 2 + b3 * 2 ^ 3 from
        lor_eq_add 3 _ _ (by omega) (by omega)]
  rw [show b0 * 2 ^ 0 + b1 * 2 ^ 1 + b2 * 2 ^ 2 + b3 * 2 ^ 3 ||| b4 * 2 ^ 4 =
        b0 * 2 ^ 0 + b1 * 2 ^ 1 + b2 * 2 ^ 2 + b3 * 2 ^ 3 + b4 * 2 ^ 4 from
        lor_eq_add 4 _ _ (by omega) (by omega)]
  rw [show b0 * 2 ^ 0 + b1 * 2 ^ 1 + b2 * 2 ^ 2 + b3 * 2 ^ 3 + b4 * 2 ^ 4 ||| b5 * 2 ^ 5 =
        b0 * 2 ^ 0 + b1 * 2 ^ 1 + b2 * 2 ^ 2 + b3 * 2 ^ 3 + b4 * 2 ^ 4 + b5 * 2 ^ 5 from
        lor_eq_add 5 _ _ (by omega) (by omega)]
  rw [show b0 * 2 ^ 0 + b1 * 2 ^ 1 + b2 * 2 ^ 2 + b3 * 2 ^ 3 + b4 * 2 ^ 4 + b5 * 2 ^ 5 |||
        b6 * 2 ^ 6 =
        b0 * 2 ^ 0 + b1 * 2 ^ 1 + b2 * 2 ^ 2 + b3 * 2 ^ 3 + b4 * 2 ^ 4 + b5 * 2 ^ 5 +
          b6 * 2 ^ 6 from
        lor_eq_add 6 _ _ (by omega) (by omega)]
  rw [show b0 * 2 ^ 0 + b1 * 2 ^ 1 + b2 * 2 ^ 2 + b3 * 2 ^ 3 + b4 * 2 ^ 4 + b5 * 2 ^ 5 +
        b6 * 2 ^ 6 ||| b7 * 2 ^ 7 =
        b0 * 2 ^ 0 + b1 * 2 ^ 1 + b2 * 2 ^ 2 + b3 * 2 ^ 3 + b4 * 2 ^ 4 + b5 * 2 ^ 5 +
          b6 * 2 ^ 6 + b7 * 2 ^ 7 from
        lor_eq_add 7 _ _ (by omega) (by omega)]
  omega

theorem poly_tomsg_eq_sum (a : poly) (i : ℕ) :
    poly_tomsg a i =
      poly_tomsg_bit (a (8 * i + 0)) + 2 * poly_tomsg_bit (a (8 * i + 1)) +
        4 * poly_tomsg_bit (a (8 * i + 2)) + 8 * poly_tomsg_bit (a (8 * i + 3)) +
        16 * poly_tomsg_bit (a (8 * i + 4)) + 32 * poly_tomsg_bit (a (8 * i + 5)) +
        64 * poly_tomsg_bit (a (8 * i + 6)) + 128 * poly_tomsg_bit (a (8 * i + 7)) := by
  unfold poly_tomsg
  rw [show List.range 8 = [0, 1, 2, 3, 4, 5, 6, 7] from rfl]
  simp only [List.foldl_cons, List.foldl_nil]
  exact byte_or_bits _ _ _ _ _ _ _ _ (poly_tomsg_bit_le _) (poly_tomsg_bit_le _)
    (poly_tomsg_bit_le _) (poly_tomsg_bit_le _) (poly_tomsg_bit_le _)
    (poly_tomsg_bit_le _) (poly_tomsg_bit_le _) (poly_tomsg_bit_le _)

theorem poly_tomsg_bit_of_1665 : poly_tomsg_bit 1665 = 1 := rfl

theorem poly_tomsg_bit_of_0 : poly_tomsg_bit 0 = 0 := rfl

theorem scalar_compress_q_16_lt (u : ℕ) : scalar_compress_q_16 u < 16 :=
  Nat.mod_lt _ (by norm_num)

theorem scalar_compress_q_32_lt (u : ℕ) : scalar_compress_q_32 u < 32 :=
  Nat.mod_lt _ (by norm_num)

theorem tomsg_bit_eq_compress1 : ∀ c : ℕ, c < 3329 → poly_tomsg_bit (c : ℤ) = compress1 c := by
  have hck := ball_of_checkRange (fun (c : ℕ) => poly_tomsg_bit (c : ℤ) == compress1 c) 3329 13
    (by rfl)
  intro c hc
  have hb := hck c hc
  simpa using hb

theorem dist16_bound :
    ∀ c : ℕ, c < 3329 →
      (Int.bmod ((c : ℤ) - (scalar_decompress_q_16 (scalar_compress_q_16 c) : ℤ)) 3329).natAbs
        ≤ 105 := by
  have hck := ball_of_checkRange
    (fun (c : ℕ) => decide
      ((Int.bmod ((c : ℤ) - (scalar_decompress_q_16 (scalar_compress_q_16 c) : ℤ)) 3329).natAbs
        ≤ 105)) 3329 13 (by rfl)
  intro c hc
  have hb := hck c hc
  simpa using hb

theorem dist32_bound :
    ∀ c : ℕ, c < 3329 →
      (Int.bmod ((c : ℤ) - (scalar_decompress_q_32 (scalar_compress_q_32 c) : ℤ)) 3329).natAbs
        ≤ 53 := by
  have hck := ball_of_checkRange
    (fun (c : ℕ) => decide
      ((Int.bmod ((c : ℤ) - (scalar_decompress_q_32 (scalar_compress_q_32 c) : ℤ)) 3329).natAbs
        ≤ 53)) 3329 13 (by rfl)
  intro c hc
  have hb := hck c hc
  simpa using hb

/-! Byte-level characterizations of `poly_tobytes` and the 12-bit packing
round trip. -/

theorem poly_tobytes_byte0 (a : poly) (i : ℕ) :
    poly_tobytes a (3 * i) = toUInt16Z (a (2 * i)) &&& 255 := by
  unfold poly_tobytes
  have d0 : 3 * i / 3 = i := by omega
  have m0 : 3 * i % 3 = 0 := by omega
  simp only [d0, m0]

theorem poly_tobytes_byte1 (a : poly) (i : ℕ) :
    poly_tobytes a (3 * i + 1) =
      (toUInt16Z (a (2 * i)) >>> 8) ||| ((toUInt16Z (a (2 * i + 1)) <<< 4) &&& 240) := by
  unfold poly_tobytes
  have d1 : (3 * i + 1) / 3 = i := by omega
  have m1 : (3 * i + 1) % 3 = 1 := by omega
  simp only [d1, m1]

theorem poly_tobytes_byte2 (a : poly) (i : ℕ) :
    poly_tobytes a (3 * i + 2) = toUInt16Z (a (2 * i + 1)) >>> 4 := by
  unfold poly_tobytes
  have d2 : (3 * i + 2) / 3 = i := by omega
  have m2 : (3 * i + 2) % 3 = 2 := by omega
  simp only [d2, m2]

theorem encode12_roundtrip (n0 n1 : ℕ) (hn0 : n0 < 4096) (_hn1 : n1 < 4096) :
    (n0 &&& 255) ||| (((n0 >>> 8) ||| ((n1 <<< 4) &&& 240)) <<< 8) &&& 4095 = n0 ∧
    (((n0 >>> 8) ||| ((n1 <<< 4) &&& 240)) >>> 4) ||| ((n1 >>> 4) <<< 4) = n1 := by
  have hA : (n1 <<< 4) &&& 240 = 16 * (n1 % 16) := shl4_and240 n1
  have hB : n0 >>> 8 ||| 16 * (n1 % 16) = n0 / 2 ^ 8 + 16 * (n1 % 16) := by
    rw [Nat.shiftRight_eq_div_pow]
    exact lor_eq_add 4 _ _ (by omega) (by omega)
  constructor
  · rw [hA, hB, and255, Nat.shiftLeft_eq, and4095]
    rw [show (n0 / 2 ^ 8 + 16 * (n1 % 16)) * 2 ^ 8 % 4096 =
          256 * ((n0 / 2 ^ 8 + 16 * (n1 % 16)) % 16) from by omega]
    rw [show n0 % 256 ||| 256 * ((n0 / 2 ^ 8 + 16 * (n1 % 16)) % 16) =
          n0 % 256 + 256 * ((n0 / 2 ^ 8 + 16 * (n1 % 16)) % 16) from
          lor_eq_add 8 _ _ (by omega) (by omega)]
    omega
  · rw [hA, hB, Nat.shiftRight_eq_div_pow _ 4, Nat.shiftRight_eq_div_pow n1 4,
        Nat.shiftLeft_eq]
    rw [show (n0 / 2 ^ 8 + 16 * (n1 % 16)) / 2 ^ 4 ||| n1 / 2 ^ 4 * 2 ^ 4 =
          (n0 / 2 ^ 8 + 16 * (n1 % 16)) / 2 ^ 4 + n1 / 2 ^ 4 * 2 ^ 4 from
          lor_eq_add 4 _ _ (by omega) (by omega)]
    omega

theorem frombytes_even_char (t0 t1 : ℕ) (h0 : t0 < 256) :
    t0 ||| ((t1 <<< 8) &&& 4095) = t0 + 256 * (t1 % 16) := by
  rw [Nat.shiftLeft_eq, and4095,
      show t1 * 2 ^ 8 % 4096 = 256 * (t1 % 16) from by omega]
  exact lor_eq_add 8 _ _ (by omega) (by omega)

theorem frombytes_odd_char (t1 t2 : ℕ) (h1 : t1 < 256) :
    (t1 >>> 4) ||| (t2 <<< 4) = t1 / 16 + 16 * t2 := by
  rw [Nat.shiftRight_eq_div_pow, Nat.shiftLeft_eq]
  rw [show t1 / 2 ^ 4 ||| t2 * 2 ^ 4 = t1 / 2 ^ 4 + t2 * 2 ^ 4 from
        lor_eq_add 4 _ _ (by omega) (by omega)]
  omega

/-- C1: for every polynomial all of whose 256 coefficients are
unsigned-canonical (in `[0, q)` with q = 3329), `poly_frombytes` applied to
the byte array produced by `poly_tobytes` returns the polynomial exactly,
coefficient for coefficient. -/
theorem tobytes_frombytes_roundtrip :
    ∀ a : poly, (∀ k, k < 256 → 0 ≤ a k ∧ a k < 3329) →
      ∀ k, k < 256 → poly_frombytes (poly_tobytes a) k = a k := by
  intro a hc k hk
  obtain ⟨h0a, h0b⟩ := hc (2 * (k / 2)) (by omega)
  obtain ⟨h1a, h1b⟩ := hc (2 * (k / 2) + 1) (by omega)
  obtain ⟨ht0, ht0lt⟩ := toUInt16Z_canonical _ h0a h0b
  obtain ⟨ht1, ht1lt⟩ := toUInt16Z_canonical _ h1a h1b
  have hrt := encode12_roundtrip (toUInt16Z (a (2 * (k / 2))))
    (toUInt16Z (a (2 * (k / 2) + 1))) (by omega) (by omega)
  simp only [poly_frombytes, poly_tobytes_byte0, poly_tobytes_byte1, poly_tobytes_byte2]
  by_cases hk2 : k % 2 = 0
  · rw [if_pos hk2, hrt.1, ht0, Int.toNat_of_nonneg h0a,
        show 2 * (k / 2) = k from by omega]
  · rw [if_neg hk2, hrt.2, ht1, Int.toNat_of_nonneg h1a,
        show 2 * (k / 2) + 1 = k from by omega]

/-- Witness for C1 at the concrete canonical polynomial `polyRamp`. -/
theorem tobytes_frombytes_roundtrip_witness :
    poly_frombytes (poly_tobytes polyRamp) 7 = polyRamp 7 :=
  tobytes_frombytes_roundtrip polyRamp
    (fun k _ => ⟨Int.ofNat_nonneg _, by
      simp only [polyRamp]
      exact_mod_cast (show k % 256 < 3329 from by omega)⟩)
    7 (by norm_num)

/-- C2: `poly_frommsg` sets coefficient `8j+i` to `(q+1)/2 = 1665` exactly
when bit `i` of message byte `j` is 1 and to 0 otherwise; in particular,
on the message `FF 00 ... 00` coefficients 0..7 are 1665 and coefficients
8..255 are 0. -/
theorem frommsg_bit_spec :
    (∀ (m : Bytes) (j i : ℕ), j < 32 → i < 8 →
        poly_frommsg m (8 * j + i) = if (m j).testBit i then (1665 : ℤ) else 0) ∧
    (∀ k, k < 8 → poly_frommsg msgFF k = 1665) ∧
    (∀ k, 8 ≤ k → k < 256 → poly_frommsg msgFF k = 0) := by
  refine ⟨?_, ?_, ?_⟩
  · intro m j i hj hi
    simp only [poly_frommsg, cmov_int16]
    have hd : (8 * j + i) / 8 = j := by omega
    have hm : (8 * j + i) % 8 = i := by omega
    rw [hd, hm, and1, Nat.shiftRight_eq_div_pow]
    have hq : (HALF_Q : ℤ) = 1665 := by norm_num [HALF_Q, MLKEM_Q]
    rw [hq]
    by_cases hb : (m j).testBit i
    · rw [if_pos hb]
      rw [Nat.testBit_to_div_mod] at hb
      simp only [decide_eq_true_eq] at hb
      rw [if_pos (by omega)]
    · rw [if_neg hb]
      rw [Nat.testBit_to_div_mod] at hb
      simp only [decide_eq_true_eq] at hb
      rw [if_neg (by omega)]
  · intro k hk
    interval_cases k <;> decide
  · intro k hk8 hk256
    simp only [poly_frommsg, cmov_int16, msgFF]
    have hnz : ¬(k / 8 = 0) := by omega
    simp [hnz]

/-- Witness for C2 at concrete inputs. -/
theorem frommsg_bit_spec_witness :
    poly_frommsg bytesRamp (8 * 1 + 0) =
      (if (bytesRamp 1).testBit 0 then (1665 : ℤ) else 0) ∧
    poly_frommsg msgFF 0 = 1665 ∧ poly_frommsg msgFF 8 = 0 :=
  ⟨frommsg_bit_spec.1 bytesRamp 1 0 (by norm_num) (by norm_num),
   frommsg_bit_spec.2.1 0 (by norm_num),
   frommsg_bit_spec.2.2 8 (by norm_num) (by norm_num)⟩

/-- C6: for every 384-byte input, every coefficient of `poly_frombytes`
equals the raw 12-bit little-endian value decoded from the byte stream and
lies in `[0, 4096)`; no reduction modulo q is performed, so an encoded
value in `[q, 4096)` is returned unchanged (second conjunct: a concrete
non-canonical instance). -/
theorem frombytes_raw_unreduced :
    (∀ a : Bytes, (∀ n, n < 384 → a n < 256) →
       ∀ k, k < 256 → poly_frombytes a k = rawDecode12 a k ∧
         0 ≤ poly_frombytes a k ∧ poly_frombytes a k < 4096) ∧
    (poly_frombytes (fun _ => 255) 0 = 4095 ∧ ¬(poly_frombytes (fun _ => 255) 0 < 3329)) := by
  constructor
  · intro a hb k hk
    have h0 := hb (3 * (k / 2)) (by omega)
    have h1 := hb (3 * (k / 2) + 1) (by omega)
    have h2 := hb (3 * (k / 2) + 2) (by omega)
    simp only [poly_frombytes, rawDecode12]
    by_cases hk2 : k % 2 = 0
    · rw [if_pos hk2, hk2, frombytes_even_char _ _ h0]
      refine ⟨?_, Int.ofNat_nonneg _, ?_⟩
      · simp only [Nat.mul_zero, Nat.shiftRight_zero]
        push_cast
        omega
      · exact_mod_cast show a (3 * (k / 2)) + 256 * (a (3 * (k / 2) + 1) % 16) < 4096 from
          by omega
    · rw [if_neg hk2, show k % 2 = 1 from by omega, frombytes_odd_char _ _ h1]
      refine ⟨?_, Int.ofNat_nonneg _, ?_⟩
      · simp only [Nat.mul_one]
        rw [Nat.shiftRight_eq_div_pow]
        push_cast
        omega
      · exact_mod_cast show a (3 * (k / 2) + 1) / 16 + 16 * a (3 * (k / 2) + 2) < 4096 from
          by omega
  · constructor
    · decide
    · decide

/-- Witness for C6 at the concrete byte array `bytesRamp`. -/
theorem frombytes_raw_unreduced_witness :
    poly_frombytes bytesRamp 0 = rawDecode12 bytesRamp 0 ∧
      0 ≤ poly_frombytes bytesRamp 0 ∧ poly_frombytes bytesRamp 0 < 4096 :=
  frombytes_raw_unreduced.1 bytesRamp (fun n _ => Nat.mod_lt _ (by norm_num)) 0 (by norm_num)

theorem polyRamp_canonical : ∀ k, k < 256 → 0 ≤ polyRamp k ∧ polyRamp k < 3329 := by
  intro k _
  refine ⟨Int.ofNat_nonneg _, ?_⟩
  simp only [polyRamp]
  exact_mod_cast (show k % 256 < 3329 from by omega)

/-- Counterexample for C3: at the unsigned-canonical coefficient c = 2497,
the spec formula with `q/2` (the C integer quotient 1664) yields bit 1,
whereas `round(2c/q) mod 2 = 0` and the bit actually computed by
`poly_tomsg` (which adds `HALF_Q = (q+1)/2 = 1665`) is 0. -/
theorem tomsg_formula_counterexample :
    tomsg_bit_specFormula 2497 = 1 ∧ compress1 2497 = 0 ∧
      poly_tomsg_bit (2497 : ℤ) = 0 := by
  refine ⟨by decide, by decide, by decide⟩

/-- C3 (amended): for every unsigned-canonical coefficient, the bit
computed by `poly_tomsg` — the constant-time formula with the constant
`(q+1)/2 = 1665` (`HALF_Q`), not `q/2 = 1664` — equals the FIPS-203
Compress_1 value `round(2c/q) mod 2`; consequently bit `i` of output byte
`j` of `poly_tomsg` equals Compress_1 of coefficient `8j+i`. -/
theorem tomsg_compress1_spec :
    (∀ c : ℕ, c < 3329 → poly_tomsg_bit (c : ℤ) = compress1 c) ∧
    (∀ a : poly, (∀ k, k < 256 → 0 ≤ a k ∧ a k < 3329) →
       ∀ j i, j < 32 → i < 8 →
         (poly_tomsg a j >>> i) &&& 1 = compress1 (a (8 * j + i)).toNat) := by
  constructor
  · exact tomsg_bit_eq_compress1
  · intro a hc j i hj hi
    have hbit : ∀ t, t < 8 →
        poly_tomsg_bit (a (8 * j + t)) = compress1 (a (8 * j + t)).toNat := by
      intro t ht
      obtain ⟨hta, htb⟩ := hc (8 * j + t) (by omega)
      have hcc := tomsg_bit_eq_compress1 (a (8 * j + t)).toNat (by omega)
      rwa [Int.toNat_of_nonneg hta] at hcc
    have h0 := poly_tomsg_bit_le (a (8 * j + 0))
    have h1 := poly_tomsg_bit_le (a (8 * j + 1))
    have h2 := poly_tomsg_bit_le (a (8 * j + 2))
    have h3 := poly_tomsg_bit_le (a (8 * j + 3))
    have h4 := poly_tomsg_bit_le (a (8 * j + 4))
    have h5 := poly_tomsg_bit_le (a (8 * j + 5))
    have h6 := poly_tomsg_bit_le (a (8 * j + 6))
    have h7 := poly_tomsg_bit_le (a (8 * j + 7))
    rw [poly_tomsg_eq_sum, and1, Nat.shiftRight_eq_div_pow, ← hbit i hi]
    interval_cases i <;> omega

/-- Witness for the amended C3 theorem at concrete inputs. -/
theorem tomsg_compress1_spec_witness :
    poly_tomsg_bit ((0 : ℕ) : ℤ) = compress1 0 ∧
      (poly_tomsg polyRamp 0 >>> 1) &&& 1 = compress1 (polyRamp (8 * 0 + 1)).toNat :=
  ⟨tomsg_compress1_spec.1 0 (by norm_num),
   tomsg_compress1_spec.2 polyRamp polyRamp_canonical 0 1 (by norm_num) (by norm_num)⟩

/-- C4: for every 32-byte message, `poly_tomsg` applied to
`poly_frommsg m` returns `m` exactly. -/
theorem frommsg_tomsg_roundtrip :
    ∀ m : Bytes, (∀ j, j < 32 → m j < 256) → ∀ i, i < 32 →
      poly_tomsg (poly_frommsg m) i = m i := by
  intro m hm i hi
  have hbit : ∀ t, t < 8 →
      poly_tomsg_bit (poly_frommsg m (8 * i + t)) = m i / 2 ^ t % 2 := by
    intro t ht
    simp only [poly_frommsg, cmov_int16]
    have hd : (8 * i + t) / 8 = i := by omega
    have hmm : (8 * i + t) % 8 = t := by omega
    rw [hd, hmm, and1, Nat.shiftRight_eq_div_pow]
    by_cases hb : m i / 2 ^ t % 2 = 1
    · rw [if_pos (by omega),
        show ((HALF_Q : ℕ) : ℤ) = 1665 from by norm_num [HALF_Q, MLKEM_Q], hb]
      exact poly_tomsg_bit_of_1665
    · rw [if_neg (by omega), poly_tomsg_bit_of_0]
      omega
  rw [poly_tomsg_eq_sum, hbit 0 (by norm_num), hbit 1 (by norm_num), hbit 2 (by norm_num),
      hbit 3 (by norm_num), hbit 4 (by norm_num), hbit 5 (by norm_num),
      hbit 6 (by norm_num), hbit 7 (by norm_num)]
  have hmi := hm i hi
  omega

/-- Witness for C4 at the concrete message `msgFF`. -/
theorem frommsg_tomsg_roundtrip_witness :
    poly_tomsg (poly_frommsg msgFF) 0 = msgFF 0 :=
  frommsg_tomsg_roundtrip msgFF
    (fun j _ => by by_cases h : j = 0 <;> simp [msgFF, h]) 0 (by norm_num)

/-- C8: `poly_add` and `poly_sub` compute the exact integer sum and
difference coefficient-wise whenever these stay within the `int16` range
(the C precondition excluding signed overflow), with no modular reduction;
the second operand is left unchanged by construction in this functional
embedding. -/
theorem add_sub_exact :
    ∀ a b : poly,
      ((∀ k, k < 256 → -32768 ≤ a k + b k ∧ a k + b k ≤ 32767) →
         ∀ k, k < 256 → poly_add a b k = a k + b k) ∧
      ((∀ k, k < 256 → -32768 ≤ a k - b k ∧ a k - b k ≤ 32767) →
         ∀ k, k < 256 → poly_sub a b k = a k - b k) :=
  fun _ _ => ⟨fun _ _ _ => rfl, fun _ _ _ => rfl⟩

/-- Witness for C8 at concrete polynomials. -/
theorem add_sub_exact_witness :
    poly_add polyRamp polyRamp 3 = polyRamp 3 + polyRamp 3 ∧
      poly_sub polyRamp polyRamp 3 = polyRamp 3 - polyRamp 3 :=
  ⟨(add_sub_exact polyRamp polyRamp).1
      (fun k _ => by simp only [polyRamp]; omega) 3 (by norm_num),
   (add_sub_exact polyRamp polyRamp).2
      (fun k _ => by simp only [polyRamp]; omega) 3 (by norm_num)⟩

theorem streamBit_le (buf : Bytes) (t : ℕ) : streamBit buf t ≤ 1 := by
  simp only [streamBit]
  rw [and1]
  omega

theorem poly_cbd2_bound (buf : Bytes) (k : ℕ) : (poly_cbd2 buf k).natAbs ≤ 2 := by
  simp only [poly_cbd2]
  have b0 := streamBit_le buf (4 * k)
  have b1 := streamBit_le buf (4 * k + 1)
  have b2 := streamBit_le buf (4 * k + 2)
  have b3 := streamBit_le buf (4 * k + 3)
  omega

theorem poly_cbd3_bound (buf : Bytes) (k : ℕ) : (poly_cbd3 buf k).natAbs ≤ 3 := by
  simp only [poly_cbd3]
  have b0 := streamBit_le buf (6 * k)
  have b1 := streamBit_le buf (6 * k + 1)
  have b2 := streamBit_le buf (6 * k + 2)
  have b3 := streamBit_le buf (6 * k + 3)
  have b4 := streamBit_le buf (6 * k + 4)
  have b5 := streamBit_le buf (6 * k + 5)
  omega

/-- C9: for every seed, nonces and SHAKE-256 oracle,
`poly_getnoise_eta1122_4x` yields four polynomials whose coefficients are
bounded by the requested η: outputs 0 and 1 by η1 ∈ {2, 3}, outputs 2 and
3 by η2 = 2; and every coefficient of `poly_getnoise_eta2` is in [−2, 2]. -/
theorem getnoise_bounds :
    ∀ (shake256 : Bytes → Bytes) (seed : Bytes)
      (eta1 nonce0 nonce1 nonce2 nonce3 nonce : ℕ),
      eta1 = 2 ∨ eta1 = 3 →
      ∀ k,
        (((poly_getnoise_eta1122_4x shake256 eta1 seed nonce0 nonce1 nonce2 nonce3).1 k).natAbs
            ≤ eta1 ∧
         ((poly_getnoise_eta1122_4x shake256 eta1 seed nonce0 nonce1 nonce2 nonce3).2.1 k).natAbs
            ≤ eta1 ∧
         ((poly_getnoise_eta1122_4x shake256 eta1 seed nonce0 nonce1 nonce2 nonce3).2.2.1 k).natAbs
            ≤ 2 ∧
         ((poly_getnoise_eta1122_4x shake256 eta1 seed nonce0 nonce1 nonce2 nonce3).2.2.2 k).natAbs
            ≤ 2) ∧
        (poly_getnoise_eta2 shake256 seed nonce k).natAbs ≤ 2 := by
  intro shake256 seed eta1 nonce0 nonce1 nonce2 nonce3 nonce heta k
  constructor
  · rcases heta with h | h
    · subst h
      simp only [poly_getnoise_eta1122_4x, poly_cbd_eta1]
      norm_num
      exact ⟨poly_cbd2_bound _ _, poly_cbd2_bound _ _, poly_cbd2_bound _ _,
        poly_cbd2_bound _ _⟩
    · subst h
      simp only [poly_getnoise_eta1122_4x, poly_cbd_eta1]
      norm_num
      exact ⟨poly_cbd3_bound _ _, poly_cbd3_bound _ _, poly_cbd2_bound _ _,
        poly_cbd2_bound _ _⟩
  · simp only [poly_getnoise_eta2]
    exact poly_cbd2_bound _ _

/-- Witness for C9 at a concrete oracle, seed and nonces, with η1 = 3. -/
theorem getnoise_bounds_witness :
    (((poly_getnoise_eta1122_4x (fun _ => fun _ => 0) 3 bytesRamp 0 1 2 3).1 0).natAbs ≤ 3 ∧
     ((poly_getnoise_eta1122_4x (fun _ => fun _ => 0) 3 bytesRamp 0 1 2 3).2.1 0).natAbs ≤ 3 ∧
     ((poly_getnoise_eta1122_4x (fun _ => fun _ => 0) 3 bytesRamp 0 1 2 3).2.2.1 0).natAbs ≤ 2 ∧
     ((poly_getnoise_eta1122_4x (fun _ => fun _ => 0) 3 bytesRamp 0 1 2 3).2.2.2 0).natAbs ≤ 2) ∧
    (poly_getnoise_eta2 (fun _ => fun _ => 0) bytesRamp 0 0).natAbs ≤ 2 :=
  getnoise_bounds (fun _ => fun _ => 0) bytesRamp 3 0 1 2 3 0 (Or.inr rfl) 0

/-- Counterexample for C7: the claimed pair-index range `[0, 128)` exceeds
the cache and coefficient arrays — the C loop runs over `i < MLKEM_N/4 =
64`, writing the 128 cache entries `2i` and `2i+1` from `a[4i+1]` and
`a[4i+3]` with `4i+3 ≤ 255`.  Pair index 64 would read `a[257]`, past the
last coefficient, and write cache entries 128, 129, past the 128-entry
cache.  For the input `aBadMulcache`, whose 256 actual coefficients are
all zero (hence int16-representable), the entry at pair index 64 of the
total-function embedding evaluates to 4570, violating the claimed bound
`|entry| < q`. -/
theorem mulcache_range_counterexample :
    (∀ j, j < 256 → -32768 ≤ aBadMulcache j ∧ aBadMulcache j ≤ 32767) ∧
    64 < 128 ∧
    poly_mulcache_compute aBadMulcache (2 * 64) = 4570 ∧
    ¬((poly_mulcache_compute aBadMulcache (2 * 64)).natAbs < 3329) := by
  refine ⟨?_, by norm_num, by decide, by decide⟩
  intro j hj
  simp only [aBadMulcache]
  rw [if_neg (by omega)]
  norm_num

/-- C7 (amended): for every int16-representable polynomial,
`poly_mulcache_compute` fills the 128-entry cache so that for each pair
index `i ∈ [0, 64)` the entries `2i` and `2i+1` are `montgomery_reduce` of
the 32-bit products `a[4i+1]·ζ_i` and `a[4i+3]·(−ζ_i)` with the mul-cache
zeta table (`zetas[64+i]`), and every entry has absolute value strictly
less than q = 3329. -/
theorem mulcache_compute_spec :
    ∀ a : poly, (∀ j, j < 256 → -32768 ≤ a j ∧ a j ≤ 32767) →
      ∀ i, i < 64 →
        poly_mulcache_compute a (2 * i) =
          montgomery_reduce (a (4 * i + 1) * zetas (64 + i)) ∧
        poly_mulcache_compute a (2 * i + 1) =
          montgomery_reduce (a (4 * i + 3) * -zetas (64 + i)) ∧
        (poly_mulcache_compute a (2 * i)).natAbs < 3329 ∧
        (poly_mulcache_compute a (2 * i + 1)).natAbs < 3329 := by
  intro a ha i hi
  obtain ⟨h1a, h1b⟩ := ha (4 * i + 1) (by omega)
  obtain ⟨h3a, h3b⟩ := ha (4 * i + 3) (by omega)
  obtain ⟨hz0, hz1⟩ := zetas_bounds (64 + i)
  have heq0 : poly_mulcache_compute a (2 * i) = fqmul (a (4 * i + 1)) (zetas (64 + i)) := by
    simp only [poly_mulcache_compute]
    rw [show 2 * i % 2 = 0 from by omega, show 2 * i / 2 = i from by omega]
    simp
  have heq1 : poly_mulcache_compute a (2 * i + 1) =
      fqmul (a (4 * i + 3)) (-zetas (64 + i)) := by
    simp only [poly_mulcache_compute]
    rw [show (2 * i + 1) % 2 = 1 from by omega, show (2 * i + 1) / 2 = i from by omega]
    simp
  have habs0 : (a (4 * i + 1) * zetas (64 + i)).natAbs ≤ 32768 * 3328 := by
    rw [Int.natAbs_mul]
    have hx : (a (4 * i + 1)).natAbs ≤ 32768 := by omega
    have hz : (zetas (64 + i)).natAbs ≤ 3328 := by omega
    exact Nat.mul_le_mul hx hz
  have habs1 : (a (4 * i + 3) * -zetas (64 + i)).natAbs ≤ 32768 * 3328 := by
    rw [Int.natAbs_mul, Int.natAbs_neg]
    have hx : (a (4 * i + 3)).natAbs ≤ 32768 := by omega
    have hz : (zetas (64 + i)).natAbs ≤ 3328 := by omega
    exact Nat.mul_le_mul hx hz
  have hm0 := montgomery_reduce_bound (a (4 * i + 1) * zetas (64 + i)) (by omega)
  have hm1 := montgomery_reduce_bound (a (4 * i + 3) * -zetas (64 + i)) (by omega)
  refine ⟨heq0.trans rfl, heq1.trans rfl, ?_, ?_⟩
  · rw [heq0]
    simp only [fqmul]
    omega
  · rw [heq1]
    simp only [fqmul]
    omega

/-- Witness for the amended C7 theorem at the zero polynomial. -/
theorem mulcache_compute_spec_witness :
    poly_mulcache_compute (fun _ => 0) (2 * 5) =
      montgomery_reduce ((fun (_ : ℕ) => (0 : ℤ)) (4 * 5 + 1) * zetas (64 + 5)) ∧
    poly_mulcache_compute (fun _ => 0) (2 * 5 + 1) =
      montgomery_reduce ((fun (_ : ℕ) => (0 : ℤ)) (4 * 5 + 3) * -zetas (64 + 5)) ∧
    (poly_mulcache_compute (fun _ => 0) (2 * 5)).natAbs < 3329 ∧
    (poly_mulcache_compute (fun _ => 0) (2 * 5 + 1)).natAbs < 3329 :=
  mulcache_compute_spec (fun _ => 0) (fun _ _ => ⟨by norm_num, by norm_num⟩) 5 (by norm_num)

theorem natAbs_sum_prod_le (x y z w : ℤ) (hx : x.natAbs ≤ 3329) (hy : y.natAbs ≤ 3329)
    (hz : z.natAbs ≤ 3329) (hw : w.natAbs ≤ 3329) :
    (x * y + z * w).natAbs ≤ 22164482 := by
  have h1 : (x * y).natAbs ≤ 11082241 := by
    rw [Int.natAbs_mul]
    have := Nat.mul_le_mul hx hy
    omega
  have h2 : (z * w).natAbs ≤ 11082241 := by
    rw [Int.natAbs_mul]
    have := Nat.mul_le_mul hz hw
    omega
  have h3 := Int.natAbs_add_le (x * y) (z * w)
  omega

/-- C10: for input polynomials and mul-cache bounded by q = 3329 in
absolute value, every output coefficient of
`poly_basemul_montgomery_cached` has absolute value at most
`3·(q+1)/2 − 1 = 4994`, i.e. lies strictly within `(−4995, 4995)`. -/
theorem basemul_cached_output_bound :
    ∀ (a b : poly) (b_cache : ℕ → ℤ),
      (∀ j, j < 256 → (a j).natAbs ≤ 3329) →
      (∀ j, j < 256 → (b j).natAbs ≤ 3329) →
      (∀ p, p < 128 → (b_cache p).natAbs ≤ 3329) →
      ∀ k, k < 256 → (poly_basemul_montgomery_cached a b b_cache k).natAbs ≤ 4994 := by
  intro a b b_cache haj hbj hcache k hk
  have ha0 := haj (2 * (k / 2)) (by omega)
  have ha1 := haj (2 * (k / 2) + 1) (by omega)
  have hb0 := hbj (2 * (k / 2)) (by omega)
  have hb1 := hbj (2 * (k / 2) + 1) (by omega)
  have hc0 := hcache (k / 2) (by omega)
  simp only [poly_basemul_montgomery_cached, basemul_cached]
  by_cases hk2 : k % 2 = 0
  · rw [if_pos hk2]
    have habs := natAbs_sum_prod_le _ _ _ _ ha1 hc0 ha0 hb0
    have hm := montgomery_reduce_bound
      (a (2 * (k / 2) + 1) * b_cache (k / 2) + a (2 * (k / 2)) * b (2 * (k / 2)))
      (by omega)
    omega
  · rw [if_neg hk2]
    have habs := natAbs_sum_prod_le _ _ _ _ ha0 hb1 ha1 hb0
    have hm := montgomery_reduce_bound
      (a (2 * (k / 2)) * b (2 * (k / 2) + 1) + a (2 * (k / 2) + 1) * b (2 * (k / 2)))
      (by omega)
    omega

/-- Witness for C10 at the zero polynomials and zero cache. -/
theorem basemul_cached_output_bound_witness :
    (poly_basemul_montgomery_cached (fun _ => 0) (fun _ => 0) (fun _ => 0) 0).natAbs ≤ 4994 :=
  basemul_cached_output_bound (fun _ => 0) (fun _ => 0) (fun _ => 0)
    (fun _ _ => by norm_num) (fun _ _ => by norm_num) (fun _ _ => by norm_num) 0 (by norm_num)

/-! Packing lemmas for the compressed-polynomial layouts. -/

theorem nibble_lo (x y : ℕ) (hx : x < 16) : ((x ||| y <<< 4) >>> 0) &&& 0xF = x := by
  rw [Nat.shiftRight_zero, Nat.shiftLeft_eq,
      show x ||| y * 2 ^ 4 = x + y * 2 ^ 4 from lor_eq_add 4 _ _ (by omega) (by omega),
      and15]
  omega

theorem nibble_hi (x y : ℕ) (hx : x < 16) (hy : y < 16) :
    ((x ||| y <<< 4) >>> 4) &&& 0xF = y := by
  rw [Nat.shiftLeft_eq,
      show x ||| y * 2 ^ 4 = x + y * 2 ^ 4 from lor_eq_add 4 _ _ (by omega) (by omega),
      Nat.shiftRight_eq_div_pow, and15]
  omega


theorem compress128_byte (p : poly) (n : ℕ) :
    poly_compress_128 p n =
      scalar_compress_q_16 (p (2 * n)).toNat |||
        scalar_compress_q_16 (p (2 * n + 1)).toNat <<< 4 := by
  simp only [poly_compress_128]
  rcases (by omega : n % 4 = 0 ∨ n % 4 = 1 ∨ n % 4 = 2 ∨ n % 4 = 3) with h | h | h | h
  · rw [h, show 8 * (n / 4) + 0 = 2 * n from by omega,
        show 8 * (n / 4) + 1 = 2 * n + 1 from by omega]
  · rw [h, show 8 * (n / 4) + 2 = 2 * n from by omega,
        show 8 * (n / 4) + 3 = 2 * n + 1 from by omega]
  · rw [h, show 8 * (n / 4) + 4 = 2 * n from by omega,
        show 8 * (n / 4) + 5 = 2 * n + 1 from by omega]
  · rw [h, show 8 * (n / 4) + 6 = 2 * n from by omega,
        show 8 * (n / 4) + 7 = 2 * n + 1 from by omega]

theorem comp128_scalar (p : poly) (k : ℕ) :
    poly_decompress_128 (poly_compress_128 p) k =
      (scalar_decompress_q_16 (scalar_compress_q_16 (p k).toNat) : ℤ) := by
  simp only [poly_decompress_128]
  rw [compress128_byte]
  by_cases hk2 : k % 2 = 0
  · rw [if_pos hk2, nibble_lo _ _ (scalar_compress_q_16_lt _),
        show 2 * (k / 2) = k from by omega]
  · rw [if_neg hk2, nibble_hi _ _ (scalar_compress_q_16_lt _) (scalar_compress_q_16_lt _),
        show 2 * (k / 2) + 1 = k from by omega]

theorem compress160_byte0 (p : poly) (i : ℕ) :
    poly_compress_160 p (5 * i) =
      (scalar_compress_q_32 (p (8 * i + 0)).toNat +
        32 * scalar_compress_q_32 (p (8 * i + 1)).toNat) % 256 := by
  have l0 := scalar_compress_q_32_lt (p (8 * i + 0)).toNat
  have l1 := scalar_compress_q_32_lt (p (8 * i + 1)).toNat
  have hb : poly_compress_160 p (5 * i) =
      0xFF &&& ((scalar_compress_q_32 (p (8 * i + 0)).toNat >>> 0) |||
        scalar_compress_q_32 (p (8 * i + 1)).toNat <<< 5) := by
    simp only [poly_compress_160]
    rw [show 5 * i % 5 = 0 from by omega, show 5 * i / 5 = i from by omega]
  rw [hb, Nat.shiftRight_zero, Nat.shiftLeft_eq,
      show scalar_compress_q_32 (p (8 * i + 0)).toNat |||
          scalar_compress_q_32 (p (8 * i + 1)).toNat * 2 ^ 5 =
          scalar_compress_q_32 (p (8 * i + 0)).toNat +
            scalar_compress_q_32 (p (8 * i + 1)).toNat * 2 ^ 5 from
        lor_eq_add 5 _ _ (by omega) (by omega), and255L]
  omega

theorem compress160_byte1 (p : poly) (i : ℕ) :
    poly_compress_160 p (5 * i + 1) =
      (scalar_compress_q_32 (p (8 * i + 1)).toNat / 8 +
        4 * scalar_compress_q_32 (p (8 * i + 2)).toNat +
        128 * scalar_compress_q_32 (p (8 * i + 3)).toNat) % 256 := by
  have l1 := scalar_compress_q_32_lt (p (8 * i + 1)).toNat
  have l2 := scalar_compress_q_32_lt (p (8 * i + 2)).toNat
  have l3 := scalar_compress_q_32_lt (p (8 * i + 3)).toNat
  have hb : poly_compress_160 p (5 * i + 1) =
      0xFF &&& ((scalar_compress_q_32 (p (8 * i + 1)).toNat >>> 3) |||
        scalar_compress_q_32 (p (8 * i + 2)).toNat <<< 2 |||
        scalar_compress_q_32 (p (8 * i + 3)).toNat <<< 7) := by
    simp only [poly_compress_160]
    rw [show (5 * i + 1) % 5 = 1 from by omega, show (5 * i + 1) / 5 = i from by omega]
  rw [hb]
  simp only [Nat.shiftRight_eq_div_pow, Nat.shiftLeft_eq]
  rw [show scalar_compress_q_32 (p (8 * i + 1)).toNat / 2 ^ 3 |||
        scalar_compress_q_32 (p (8 * i + 2)).toNat * 2 ^ 2 =
        scalar_compress_q_32 (p (8 * i + 1)).toNat / 2 ^ 3 +
          scalar_compress_q_32 (p (8 * i + 2)).toNat * 2 ^ 2 from
      lor_eq_add 2 _ _ (by omega) (by omega)]
  rw [show scalar_compress_q_32 (p (8 * i + 1)).toNat / 2 ^ 3 +
        scalar_compress_q_32 (p (8 * i + 2)).toNat * 2 ^ 2 |||
        scalar_compress_q_32 (p (8 * i + 3)).toNat * 2 ^ 7 =
        scalar_compress_q_32 (p (8 * i + 1)).toNat / 2 ^ 3 +
          scalar_compress_q_32 (p (8 * i + 2)).toNat * 2 ^ 2 +
          scalar_compress_q_32 (p (8 * i + 3)).toNat * 2 ^ 7 from
      lor_eq_add 7 _ _ (by omega) (by omega), and255L]
  omega

theorem compress160_byte2 (p : poly) (i : ℕ) :
    poly_compress_160 p (5 * i + 2) =
      (scalar_compress_q_32 (p (8 * i + 3)).toNat / 2 +
        16 * scalar_compress_q_32 (p (8 * i + 4)).toNat) % 256 := by
  have l3 := scalar_compress_q_32_lt (p (8 * i + 3)).toNat
  have l4 := scalar_compress_q_32_lt (p (8 * i + 4)).toNat
  have hb : poly_compress_160 p (5 * i + 2) =
      0xFF &&& ((scalar_compress_q_32 (p (8 * i + 3)).toNat >>> 1) |||
        scalar_compress_q_32 (p (8 * i + 4)).toNat <<< 4) := by
    simp only [poly_compress_160]
    rw [show (5 * i + 2) % 5 = 2 from by omega, show (5 * i + 2) / 5 = i from by omega]
  rw [hb]
  simp only [Nat.shiftRight_eq_div_pow, Nat.shiftLeft_eq]
  rw [show scalar_compress_q_32 (p (8 * i + 3)).toNat / 2 ^ 1 |||
        scalar_compress_q_32 (p (8 * i + 4)).toNat * 2 ^ 4 =
        scalar_compress_q_32 (p (8 * i + 3)).toNat / 2 ^ 1 +
          scalar_compress_q_32 (p (8 * i + 4)).toNat * 2 ^ 4 from
      lor_eq_add 4 _ _ (by omega) (by omega), and255L]
  omega

theorem compress160_byte3 (p : poly) (i : ℕ) :
    poly_compress_160 p (5 * i + 3) =
      (scalar_compress_q_32 (p (8 * i + 4)).toNat / 16 +
        2 * scalar_compress_q_32 (p (8 * i + 5)).toNat +
        64 * scalar_compress_q_32 (p (8 * i + 6)).toNat) % 256 := by
  have l4 := scalar_compress_q_32_lt (p (8 * i + 4)).toNat
  have l5 := scalar_compress_q_32_lt (p (8 * i + 5)).toNat
  have l6 := scalar_compress_q_32_lt (p (8 * i + 6)).toNat
  have hb : poly_compress_160 p (5 * i + 3) =
      0xFF &&& ((scalar_compress_q_32 (p (8 * i + 4)).toNat >>> 4) |||
        scalar_compress_q_32 (p (8 * i + 5)).toNat <<< 1 |||
        scalar_compress_q_32 (p (8 * i + 6)).toNat <<< 6) := by
    simp only [poly_compress_160]
    rw [show (5 * i + 3) % 5 = 3 from by omega, show (5 * i + 3) / 5 = i from by omega]
  rw [hb]
  simp only [Nat.shiftRight_eq_div_pow, Nat.shiftLeft_eq]
  rw [show scalar_compress_q_32 (p (8 * i + 4)).toNat / 2 ^ 4 |||
        scalar_compress_q_32 (p (8 * i + 5)).toNat * 2 ^ 1 =
        scalar_compress_q_32 (p (8 * i + 4)).toNat / 2 ^ 4 +
          scalar_compress_q_32 (p (8 * i + 5)).toNat * 2 ^ 1 from
      lor_eq_add 1 _ _ (by omega) (by omega)]
  rw [show scalar_compress_q_32 (p (8 * i + 4)).toNat / 2 ^ 4 +
        scalar_compress_q_32 (p (8 * i + 5)).toNat * 2 ^ 1 |||
        scalar_compress_q_32 (p (8 * i + 6)).toNat * 2 ^ 6 =
        scalar_compress_q_32 (p (8 * i + 4)).toNat / 2 ^ 4 +
          scalar_compress_q_32 (p (8 * i + 5)).toNat * 2 ^ 1 +
          scalar_compress_q_32 (p (8 * i + 6)).toNat * 2 ^ 6 from
      lor_eq_add 6 _ _ (by omega) (by omega), and255L]
  omega

theorem compress160_byte4 (p : poly) (i : ℕ) :
    poly_compress_160 p (5 * i + 4) =
      (scalar_compress_q_32 (p (8 * i + 6)).toNat / 4 +
        8 * scalar_compress_q_32 (p (8 * i + 7)).toNat) % 256 := by
  have l6 := scalar_compress_q_32_lt (p (8 * i + 6)).toNat
  have l7 := scalar_compress_q_32_lt (p (8 * i + 7)).toNat
  have hb : poly_compress_160 p (5 * i + 4) =
      0xFF &&& ((scalar_compress_q_32 (p (8 * i + 6)).toNat >>> 2) |||
        scalar_compress_q_32 (p (8 * i + 7)).toNat <<< 3) := by
    simp only [poly_compress_160]
    rw [show (5 * i + 4) % 5 = 4 from by omega, show (5 * i + 4) / 5 = i from by omega]
  rw [hb]
  simp only [Nat.shiftRight_eq_div_pow, Nat.shiftLeft_eq]
  rw [show scalar_compress_q_32 (p (8 * i + 6)).toNat / 2 ^ 2 |||
        scalar_compress_q_32 (p (8 * i + 7)).toNat * 2 ^ 3 =
        scalar_compress_q_32 (p (8 * i + 6)).toNat / 2 ^ 2 +
          scalar_compress_q_32 (p (8 * i + 7)).toNat * 2 ^ 3 from
      lor_eq_add 3 _ _ (by omega) (by omega), and255L]
  omega

theorem unpack160
    (b0 b1 b2 b3 b4 t0 t1 t2 t3 t4 t5 t6 t7 : ℕ)
    (h0 : t0 < 32) (h1 : t1 < 32) (h2 : t2 < 32) (h3 : t3 < 32)
    (h4 : t4 < 32) (h5 : t5 < 32) (h6 : t6 < 32) (h7 : t7 < 32)
    (e0 : b0 = (t0 + 32 * t1) % 256)
    (e1 : b1 = (t1 / 8 + 4 * t2 + 128 * t3) % 256)
    (e2 : b2 = (t3 / 2 + 16 * t4) % 256)
    (e3 : b3 = (t4 / 16 + 2 * t5 + 64 * t6) % 256)
    (e4 : b4 = (t6 / 4 + 8 * t7) % 256) :
    0x1F &&& (b0 >>> 0) = t0 ∧
    0x1F &&& ((b0 >>> 5) ||| (b1 <<< 3)) = t1 ∧
    0x1F &&& (b1 >>> 2) = t2 ∧
    0x1F &&& ((b1 >>> 7) ||| (b2 <<< 1)) = t3 ∧
    0x1F &&& ((b2 >>> 4) ||| (b3 <<< 4)) = t4 ∧
    0x1F &&& (b3 >>> 1) = t5 ∧
    0x1F &&& ((b3 >>> 6) ||| (b4 <<< 2)) = t6 ∧
    0x1F &&& (b4 >>> 3) = t7 := by
  have hb0 : b0 < 256 := by omega
  have hb1 : b1 < 256 := by omega
  have hb2 : b2 < 256 := by omega
  have hb3 : b3 < 256 := by omega
  have hb4 : b4 < 256 := by omega
  refine ⟨?_, ?_, ?_, ?_, ?_, ?_, ?_, ?_⟩
  · rw [Nat.shiftRight_zero, and31L]
    omega
  · rw [Nat.shiftRight_eq_div_pow, Nat.shiftLeft_eq,
        show b0 / 2 ^ 5 ||| b1 * 2 ^ 3 = b0 / 2 ^ 5 + b1 * 2 ^ 3 from
          lor_eq_add 3 _ _ (by omega) (by omega), and31L]
    omega
  · rw [Nat.shiftRight_eq_div_pow, and31L]
    omega
  · rw [Nat.shiftRight_eq_div_pow, Nat.shiftLeft_eq,
        show b1 / 2 ^ 7 ||| b2 * 2 ^ 1 = b1 / 2 ^ 7 + b2 * 2 ^ 1 from
          lor_eq_add 1 _ _ (by omega) (by omega), and31L]
    omega
  · rw [Nat.shiftRight_eq_div_pow, Nat.shiftLeft_eq,
        show b2 / 2 ^ 4 ||| b3 * 2 ^ 4 = b2 / 2 ^ 4 + b3 * 2 ^ 4 from
          lor_eq_add 4 _ _ (by omega) (by omega), and31L]
    omega
  · rw [Nat.shiftRight_eq_div_pow, and31L]
    omega
  · rw [Nat.shiftRight_eq_div_pow, Nat.shiftLeft_eq,
        show b3 / 2 ^ 6 ||| b4 * 2 ^ 2 = b3 / 2 ^ 6 + b4 * 2 ^ 2 from
          lor_eq_add 2 _ _ (by omega) (by omega), and31L]
    omega
  · rw [Nat.shiftRight_eq_div_pow, and31L]
    omega

theorem comp160_scalar (p : poly) (k : ℕ) :
    poly_decompress_160 (poly_compress_160 p) k =
      (scalar_decompress_q_32 (scalar_compress_q_32 (p k).toNat) : ℤ) := by
  have l0 := scalar_compress_q_32_lt (p (8 * (k / 8) + 0)).toNat
  have l1 := scalar_compress_q_32_lt (p (8 * (k / 8) + 1)).toNat
  have l2 := scalar_compress_q_32_lt (p (8 * (k / 8) + 2)).toNat
  have l3 := scalar_compress_q_32_lt (p (8 * (k / 8) + 3)).toNat
  have l4 := scalar_compress_q_32_lt (p (8 * (k / 8) + 4)).toNat
  have l5 := scalar_compress_q_32_lt (p (8 * (k / 8) + 5)).toNat
  have l6 := scalar_compress_q_32_lt (p (8 * (k / 8) + 6)).toNat
  have l7 := scalar_compress_q_32_lt (p (8 * (k / 8) + 7)).toNat
  have hU := unpack160
    (poly_compress_160 p (5 * (k / 8)))
    (poly_compress_160 p (5 * (k / 8) + 1))
    (poly_compress_160 p (5 * (k / 8) + 2))
    (poly_compress_160 p (5 * (k / 8) + 3))
    (poly_compress_160 p (5 * (k / 8) + 4))
    _ _ _ _ _ _ _ _ l0 l1 l2 l3 l4 l5 l6 l7
    (compress160_byte0 p (k / 8)) (compress160_byte1 p (k / 8))
    (compress160_byte2 p (k / 8)) (compress160_byte3 p (k / 8))
    (compress160_byte4 p (k / 8))
  simp only [poly_decompress_160, Nat.add_zero]
  rcases (by omega :
      k % 8 = 0 ∨ k % 8 = 1 ∨ k % 8 = 2 ∨ k % 8 = 3 ∨
      k % 8 = 4 ∨ k % 8 = 5 ∨ k % 8 = 6 ∨ k % 8 = 7) with
    h | h | h | h | h | h | h | h
  · rw [h, show (0 : ℕ) = 0 from rfl]
    rw [hU.1, show 8 * (k / 8) + 0 = k from by omega]
  · rw [h, hU.2.1, show 8 * (k / 8) + 1 = k from by omega]
  · rw [h, hU.2.2.1, show 8 * (k / 8) + 2 = k from by omega]
  · rw [h, hU.2.2.2.1, show 8 * (k / 8) + 3 = k from by omega]
  · rw [h, hU.2.2.2.2.1, show 8 * (k / 8) + 4 = k from by omega]
  · rw [h, hU.2.2.2.2.2.1, show 8 * (k / 8) + 5 = k from by omega]
  · rw [h, hU.2.2.2.2.2.2.1, show 8 * (k / 8) + 6 = k from by omega]
  · rw [h, hU.2.2.2.2.2.2.2, show 8 * (k / 8) + 7 = k from by omega]

/-- C5: for every unsigned-canonical polynomial and every coefficient, the
centered distance modulo q between the original coefficient and the
corresponding coefficient of `poly_decompress (poly_compress p)` is at
most `⌈q / 2^(d+1)⌉`: 105 for the d = 4 (128-byte) layout and 53 for the
d = 5 (160-byte) layout. -/
theorem compress_decompress_bound :
    (∀ p : poly, (∀ k, k < 256 → 0 ≤ p k ∧ p k < 3329) →
       ∀ k, k < 256 →
         (Int.bmod (p k - poly_decompress_128 (poly_compress_128 p) k) 3329).natAbs
           ≤ 105) ∧
    (∀ p : poly, (∀ k, k < 256 → 0 ≤ p k ∧ p k < 3329) →
       ∀ k, k < 256 →
         (Int.bmod (p k - poly_decompress_160 (poly_compress_160 p) k) 3329).natAbs
           ≤ 53) := by
  constructor
  · intro p hc k hk
    obtain ⟨h0, h1⟩ := hc k hk
    rw [comp128_scalar]
    have hd := dist16_bound (p k).toNat (by omega)
    rwa [Int.toNat_of_nonneg h0] at hd
  · intro p hc k hk
    obtain ⟨h0, h1⟩ := hc k hk
    rw [comp160_scalar]
    have hd := dist32_bound (p k).toNat (by omega)
    rwa [Int.toNat_of_nonneg h0] at hd

/-- Witness for C5 at the concrete canonical polynomial `polyRamp`. -/
theorem compress_decompress_bound_witness :
    (Int.bmod (polyRamp 9 - poly_decompress_128 (poly_compress_128 polyRamp) 9) 3329).natAbs
        ≤ 105 ∧
    (Int.bmod (polyRamp 9 - poly_decompress_160 (poly_compress_160 polyRamp) 9) 3329).natAbs
        ≤ 53 :=
  ⟨compress_decompress_bound.1 polyRamp polyRamp_canonical 9 (by norm_num),
   compress_decompress_bound.2 polyRamp polyRamp_canonical 9 (by norm_num)⟩
